import Mathlib

/-!
# Verification of the XMM-DM exposure-processing pipeline (`ProcessXMM/spc2dat.py`)

Shallow embedding of the numerical core of `spc2dat.py`: the sparse
response-matrix decoder, the compression threshold, effective-area folding,
flux calibration, ROI solid-angle conversion, background unit harmonization,
and the metadata join.  Matrix and spectrum values are embedded as rationals
(exact arithmetic); the ROI conversion, which involves π, is embedded over
the reals.
-/

namespace Spc2dat

/-! ## Sparse response-matrix decoder (spc2dat.py lines 77-105) -/

/-- One numpy slice assignment `det_col[fc:fc+sl] = vals` (line 96), viewed as a
function update on the column: positions `fc ≤ k < fc + sl` receive `vals[k-fc]`
(0 beyond the available values), all other positions keep their old value. -/
def sliceAssign (col : ℕ → ℚ) (fc sl : ℕ) (vals : List ℚ) : ℕ → ℚ :=
  fun k => if fc ≤ k ∧ k < fc + sl then vals.getD (k - fc) 0 else col k

/-- The group loop of lines 87-97: fold over the per-bin group list (offset,
length pairs), consuming the flattened value row `MATRIX[i]` in group order via
the running offset `jtot`, each group writing its slice into the column. -/
def decodeGroups : List (ℕ × ℕ) → ℕ → List ℚ → (ℕ → ℚ) → (ℕ → ℚ)
  | [], _, _, col => col
  | (fc, sl) :: rest, jtot, row, col =>
      decodeGroups rest (jtot + sl) row (sliceAssign col fc sl ((row.drop jtot).take sl))

/-- The all-zero column `det_col = np.zeros(len(cout_min))` (line 86). -/
def zeroCol : ℕ → ℚ := fun _ => 0

/-- The decoded column for one input bin as a function of output channel. -/
def detCol (groups : List (ℕ × ℕ)) (row : List ℚ) : ℕ → ℚ :=
  decodeGroups groups 0 row zeroCol

/-- The decoded dense column as a list of length `nout = len(cout_min)`. -/
def detColList (groups : List (ℕ × ℕ)) (row : List ℚ) (nout : ℕ) : List ℚ :=
  (List.range nout).map (detCol groups row)

/-- Flattened-value offset of group `j`: the value of `jtot` when group `j` is
processed, i.e. the sum of the run lengths of the groups before it. -/
def jtotAt (groups : List (ℕ × ℕ)) (j : ℕ) : ℕ :=
  ((groups.take j).map Prod.snd).sum

/-- Scalar (mos) layout, lines 93-95: `F_CHAN[i]` and `N_CHAN[i]` are scalars,
so every iteration of the group loop reads the same offset/length pair. -/
def groupsScalar (ngrp fc sl : ℕ) : List (ℕ × ℕ) :=
  List.replicate ngrp (fc, sl)

/-- Vector (pn) layout, lines 90-92: `F_CHAN[i]` and `N_CHAN[i]` are arrays,
group `j` reads `F_CHAN[i][j]` and `N_CHAN[i][j]`. -/
def groupsVec (ngrp : ℕ) (fchan nchan : List ℕ) : List (ℕ × ℕ) :=
  (fchan.zip nchan).take ngrp

/-- The `F_CHAN` field of the response-matrix table: one-dimensional for mos
(one scalar per input bin), two-dimensional for pn (one array per input bin);
`N_CHAN` has the same shape (lines 75-79). -/
inductive FChanField where
  | scalar (fchan nchan : List ℕ) : FChanField
  | vec (fchan nchan : List (List ℕ)) : FChanField

/-- Number of dimensions of the stored `F_CHAN` field, `len(np.shape(...))`. -/
def fchanDim : FChanField → ℕ
  | .scalar _ _ => 1
  | .vec _ _ => 2

/-- `pndat` flag, lines 77-79: set once per matrix, true exactly when the
`F_CHAN` field is two-dimensional. -/
def pndatOf (f : FChanField) : Bool :=
  fchanDim f == 2

/-- The offset/length group list read for input bin `i` with group count
`ngrp`, following the per-layout indexing of lines 88-95. -/
def binGroups (f : FChanField) (ngrp i : ℕ) : List (ℕ × ℕ) :=
  match f with
  | .scalar fchan nchan => groupsScalar ngrp (fchan.getD i 0) (nchan.getD i 0)
  | .vec fchan nchan => groupsVec ngrp (fchan.getD i []) (nchan.getD i [])

/-- Decoded dense matrix, one decoded column per input bin `i` in
`range (len N_GRP)` (the tables are row-consistent, so `len(N_GRP)` is the
number of input bins `len(cin_min)` of the loop at line 83). -/
def decodeMatrix (ngrps : List ℕ) (f : FChanField) (mat : List (List ℚ)) (nout : ℕ) : List (List ℚ) :=
  (List.range ngrps.length).map (fun i => detColList (binGroups f (ngrps.getD i 0) i) (mat.getD i []) nout)

/-! ## Compression threshold and effective-area folding (lines 99-105) -/

/-- The compression cut of lines 101-102: every column value strictly below
`1e-5` is set to exactly zero. -/
def threshold (col : List ℚ) : List ℚ :=
  col.map (fun v => if v < 1 / 100000 then 0 else v)

/-- Final response column (line 105): the thresholded decoded column scaled by
the effective area `effA[i]` of its input bin. -/
def detResCol (groups : List (ℕ × ℕ)) (row : List ℚ) (nout : ℕ) (effA : ℚ) : List ℚ :=
  (threshold (detColList groups row nout)).map (fun v => v * effA)

/-! ## Flux calibration (lines 49, 63, 112) -/

/-- Output channel widths (line 63): `cout_de = cout_max - cout_min`,
elementwise over the output energy grid edges. -/
def cout_de (cmin cmax : List ℚ) : List ℚ :=
  List.zipWith (fun hi lo => hi - lo) cmax cmin

/-- Differential flux (line 112): `flux = counts/cout_de/exp/roi_size`,
elementwise division of the counts by the channel width and the two scalars. -/
def flux (counts de : List ℚ) (e roi : ℚ) : List ℚ :=
  List.zipWith (fun c d => c / d / e / roi) counts de

/-- ROI solid angle in steradians (line 49):
`roi_size = BACKSCAL*(0.05*1./60./60.*np.pi/180.)**2`. -/
noncomputable def roi_size (backscal : ℝ) : ℝ :=
  backscal * (0.05 * 1 / 60 / 60 * Real.pi / 180) ^ 2

/-- Error kinds named by the design (spec section 7). -/
inductive PipelineError where
  | MissingCalibrationFile : PipelineError
  | ShapeMismatchError : PipelineError
  | InvalidExposureError : PipelineError
  | MetadataNotFoundError : PipelineError
deriving DecidableEq

/-- The flux computation as the code performs it (lines 45, 49, 112): the
exposure and ROI are read from the headers and divided in with no validation
of positivity, so the computation always returns a value and never raises. -/
def fluxResult (counts cmin cmax : List ℚ) (e roi : ℚ) :
    Except PipelineError (List ℚ) :=
  Except.ok (flux counts (cout_de cmin cmax) e roi)

/-! ## Background extraction (lines 119-124) -/

/-- Quiescent-particle-background effective counts: for pn (`pndat` true) the
stored per-channel `RATE` is multiplied by the exposure, for mos the stored
`COUNTS` pass through unchanged. -/
def bkg_eff_cts (pndat : Bool) (rate counts : List ℚ) (e : ℚ) : List ℚ :=
  if pndat then rate.map (fun r => r * e) else counts

/-- Matching statistical error: for pn the stored rate error `STAT_ERR` is
multiplied by the exposure, for mos the stored count error passes through. -/
def bkg_eff_cts_err (pndat : Bool) (rateErr countsErr : List ℚ) (e : ℚ) : List ℚ :=
  if pndat then rateErr.map (fun r => r * e) else countsErr

/-! ## Metadata join (lines 129-138) -/

/-- The four per-observation scalars extracted from the metadata table:
`Dfac_gal`, `Dfac_eg`, `OBSERVATION.LII`, `OBSERVATION.BII`. -/
structure ObsRow where
  dfacGal : ℚ
  dfacEg : ℚ
  galL : ℚ
  galB : ℚ
deriving DecidableEq

/-- Modelled from the spec: the contents of `int2str_dict.npy` (an external
data file, not in the repository sources), which maps an integer observation
identifier — its leading zero truncated by the upstream integer-keyed table —
back to the canonical fixed-width 10-digit zero-padded identifier string. -/
def pad10 (n : ℕ) : String :=
  String.mk (List.replicate (10 - (toString n).length) '0') ++ toString n

/-- Index renaming (line 133): `obs_df.rename(int2str_dict, axis=index)`,
replacing each integer row key by its canonical 10-digit string. -/
def renameIndex (tbl : List (ℕ × ObsRow)) : List (String × ObsRow) :=
  tbl.map (fun p => (pad10 p.1, p.2))

/-- Row lookup by string key, `obs_df.loc[obsID]` (lines 135-138): the first
row whose (renamed) index equals the requested observation identifier. -/
def locLookup (tbl : List (String × ObsRow)) (key : String) : Option ObsRow :=
  (tbl.find? (fun p => p.1 == key)).map Prod.snd

/-- The metadata join of lines 129-138: rename the integer-keyed table to
canonical 10-digit string keys, then look up the observation identifier. -/
def metadataJoin (tbl : List (ℕ × ObsRow)) (obsID : String) : Option ObsRow :=
  locLookup (renameIndex tbl) obsID

/-! ## Helper lemmas -/

theorem getD_map_mul (l : List ℚ) (e : ℚ) (k : ℕ) :
    (l.map (fun r => r * e)).getD k 0 = l.getD k 0 * e := by
  by_cases h : k < l.length
  · simp [List.getD_eq_getElem?_getD, List.getElem?_map, List.getElem?_eq_getElem, h]
  · push_neg at h
    rw [List.getD_eq_default, List.getD_eq_default l, zero_mul] <;> simp [h]

theorem getD_drop_take (row : List ℚ) (jtot sl m : ℕ) (hm : m < sl) :
    ((row.drop jtot).take sl).getD m 0 = row.getD (jtot + m) 0 := by
  simp [List.getD_eq_getElem?_getD, List.getElem?_take, hm, List.getElem?_drop]

theorem getD_cout_de (cmin cmax : List ℚ) (c : ℕ) (h1 : c < cmin.length)
    (h2 : c < cmax.length) :
    (cout_de cmin cmax).getD c 0 = cmax.getD c 0 - cmin.getD c 0 := by
  simp [cout_de, List.getD_eq_getElem?_getD, List.getElem?_zipWith,
    List.getElem?_eq_getElem, h1, h2]

end Spc2dat

namespace Spc2dat

/-! ## Claim theorems: flux, ROI, background, threshold -/

/-- C3: for every channel `c` (within the output grid), the calibrated flux is
the counts divided by the channel width (grid high edge minus low edge),
divided by the exposure time, divided by the ROI solid angle; and for fixed
counts and ROI, doubling the exposure time exactly halves the flux in every
channel. -/
theorem flux_formula_and_scaling :
    (∀ (counts cmin cmax : List ℚ) (e roi : ℚ) (c : ℕ),
      c < cmin.length → c < cmax.length →
      (flux counts (cout_de cmin cmax) e roi).getD c 0 =
        counts.getD c 0 / (cmax.getD c 0 - cmin.getD c 0) / e / roi) ∧
    (∀ (counts de : List ℚ) (e roi : ℚ),
      flux counts de (2 * e) roi = (flux counts de e roi).map (fun x => x / 2)) := by
  constructor
  · intro counts cmin cmax e roi c h1 h2
    by_cases hc : c < counts.length
    · simp [flux, cout_de, List.getD_eq_getElem?_getD, List.getElem?_zipWith,
        List.getElem?_eq_getElem, h1, h2, hc, List.getElem_zipWith]
    · push_neg at hc
      have hz : (flux counts (cout_de cmin cmax) e roi).getD c 0 = 0 := by
        apply List.getD_eq_default
        simp only [flux, List.length_zipWith]
        omega
      rw [hz, List.getD_eq_default counts 0 hc]
      simp [zero_div]
  · intro counts de e roi
    have hfg : (fun a b => a / b / (2 * e) / roi) =
        (fun a b : ℚ => a / b / e / roi / 2) := by
      funext a b
      simp only [div_div]
      congr 1
      ring
    rw [flux, flux, List.map_zipWith, hfg]

/-- C4 counterexample: a BACKSCAL value of 1,296,000,000 does not convert to
1 steradian — the converted ROI size is strictly below 1 (it equals
(π/360)², about 7.6e-5 sr). -/
theorem roi_size_backscal_not_one : roi_size 1296000000 < 1 := by
  have hpi : Real.pi < 360 := lt_trans Real.pi_lt_d2 (by norm_num)
  have h0 : (0:ℝ) ≤ Real.pi / 360 := div_nonneg Real.pi_pos.le (by norm_num)
  have h1 : Real.pi / 360 < 1 := (div_lt_one (by norm_num)).2 hpi
  calc roi_size 1296000000 = (Real.pi / 360) ^ 2 := by
        rw [roi_size]; ring_nf
      _ < 1 := by
        have := pow_lt_one₀ h0 h1 (n := 2) (by norm_num)
        simpa using this

/-- C4 (amended): the ROI solid angle is `backscal * (0.05/3600 * π/180)^2`,
it is linear in the BACKSCAL value, and a BACKSCAL value of 1,296,000,000
converts to (π/360)² steradians (about 7.6e-5 sr, not 1 sr). -/
theorem roi_size_conversion :
    (∀ b : ℝ, roi_size b = b * (0.05 / 3600 * Real.pi / 180) ^ 2) ∧
    (∀ b c : ℝ, roi_size (c * b) = c * roi_size b) ∧
    roi_size 1296000000 = (Real.pi / 360) ^ 2 := by
  refine ⟨fun b => ?_, fun b c => ?_, ?_⟩
  · rw [roi_size]; ring_nf
  · rw [roi_size, roi_size]; ring
  · rw [roi_size]; ring_nf

/-- C5 counterexample: with exposure time 0 (≤ 0), the flux computation does
not fail with `InvalidExposureError`: the code performs no validation and
returns a value. -/
theorem fluxResult_zero_exposure_ok :
    fluxResult [1] [0] [1] 0 1 = Except.ok [0] := by
  simp [fluxResult, flux, cout_de]

/-- C5 (amended): the code never raises `InvalidExposureError`: for every
input, including non-positive exposure time or ROI, the flux computation
returns a value (the unguarded elementwise quotient). -/
theorem fluxResult_always_ok :
    ∀ (counts cmin cmax : List ℚ) (e roi : ℚ),
      ∃ v, fluxResult counts cmin cmax e roi = Except.ok v :=
  fun counts cmin cmax e roi => ⟨flux counts (cout_de cmin cmax) e roi, rfl⟩

/-- C2: background extraction is family-agnostic in its output units: in the
vector (pn, family A) layout the stored per-channel rate and rate error are
multiplied by the exposure time; in the scalar (mos, family B) layout the
stored counts and count error pass through unchanged; in particular rate 2.0
with exposure 100 gives 200.0 effective counts, and 200 stored counts give
200.0. -/
theorem bkg_unit_harmonization :
    (∀ (rate counts : List ℚ) (e : ℚ) (k : ℕ),
      (bkg_eff_cts true rate counts e).getD k 0 = rate.getD k 0 * e) ∧
    (∀ (rateErr countsErr : List ℚ) (e : ℚ) (k : ℕ),
      (bkg_eff_cts_err true rateErr countsErr e).getD k 0 = rateErr.getD k 0 * e) ∧
    (∀ (rate counts : List ℚ) (e : ℚ), bkg_eff_cts false rate counts e = counts) ∧
    (∀ (rateErr countsErr : List ℚ) (e : ℚ),
      bkg_eff_cts_err false rateErr countsErr e = countsErr) ∧
    (bkg_eff_cts true [2] [] 100).getD 0 0 = 200 ∧
    (bkg_eff_cts false [] [200] 100).getD 0 0 = 200 := by
  refine ⟨fun rate counts e k => ?_, fun rateErr countsErr e k => ?_,
    fun _ _ _ => rfl, fun _ _ _ => rfl, ?_, ?_⟩
  · rw [bkg_eff_cts, if_pos rfl, getD_map_mul]
  · rw [bkg_eff_cts_err, if_pos rfl, getD_map_mul]
  · norm_num [bkg_eff_cts]
  · norm_num [bkg_eff_cts]

/-- C7: every decoded value strictly below 1e-5 is set to exactly zero (and
values at or above the cut are kept), the thresholding is idempotent, and in
the response column it is applied to the decoded column before the column is
scaled by the effective area. -/
theorem threshold_cut_idempotent_before_area :
    (∀ (col : List ℚ) (k : ℕ),
      (threshold col).getD k 0 =
        if col.getD k 0 < 1 / 100000 then 0 else col.getD k 0) ∧
    (∀ col : List ℚ, threshold (threshold col) = threshold col) ∧
    (∀ (groups : List (ℕ × ℕ)) (row : List ℚ) (nout : ℕ) (effA : ℚ),
      detResCol groups row nout effA =
        (threshold (detColList groups row nout)).map (fun v => v * effA)) := by
  refine ⟨fun col k => ?_, fun col => ?_, fun _ _ _ _ => rfl⟩
  · by_cases h : k < col.length
    · simp only [threshold, List.getD_eq_getElem?_getD, List.getElem?_map,
        List.getElem?_eq_getElem, h]
      rfl
    · push_neg at h
      rw [List.getD_eq_default, List.getD_eq_default col] <;> simp [threshold, h]
  · rw [threshold, threshold, List.map_map]
    apply List.map_congr_left
    intro v _
    by_cases h : v < 1 / 100000
    · simp only [Function.comp_apply, if_pos h, ite_self]
    · simp only [Function.comp_apply, if_neg h]

/-- C3 witness: the per-channel flux formula instantiated at a one-channel
spectrum with counts 6, output grid [1, 4], exposure 2 and ROI 3. -/
theorem flux_formula_and_scaling_witness :
    (flux [6] (cout_de [1] [4]) 2 3).getD 0 0 =
      ([6] : List ℚ).getD 0 0 /
        (([4] : List ℚ).getD 0 0 - ([1] : List ℚ).getD 0 0) / 2 / 3 :=
  flux_formula_and_scaling.1 [6] [1] [4] 2 3 0 (by decide) (by decide)

/-! ## Decoder evaluation lemmas -/

/-- A position covered by no group of the list is left at its incoming value. -/
theorem decodeGroups_untouched (groups : List (ℕ × ℕ)) (jtot : ℕ) (row : List ℚ)
    (col : ℕ → ℚ) (k : ℕ)
    (h : ∀ p ∈ groups, ¬(p.1 ≤ k ∧ k < p.1 + p.2)) :
    decodeGroups groups jtot row col k = col k := by
  induction groups generalizing jtot col with
  | nil => rfl
  | cons p rest ih =>
    obtain ⟨fc, sl⟩ := p
    rw [decodeGroups, ih _ _ (fun q hq => h q (List.mem_cons_of_mem _ hq)),
      sliceAssign, if_neg (h (fc, sl) (List.mem_cons_self _ _))]

theorem jtotAt_zero (groups : List (ℕ × ℕ)) : jtotAt groups 0 = 0 := by
  simp [jtotAt]

theorem jtotAt_cons_succ (p : ℕ × ℕ) (rest : List (ℕ × ℕ)) (j : ℕ) :
    jtotAt (p :: rest) (j + 1) = p.2 + jtotAt rest j := by
  simp [jtotAt, List.take_succ_cons]

/-- A position covered by group `j` and by no later group holds the value the
flattened row assigns to group `j` at that position. -/
theorem decodeGroups_covered (groups : List (ℕ × ℕ)) (jtot : ℕ) (row : List ℚ)
    (col : ℕ → ℚ) (j : ℕ) (hj : j < groups.length) (k : ℕ)
    (hk1 : (groups.get ⟨j, hj⟩).1 ≤ k)
    (hk2 : k < (groups.get ⟨j, hj⟩).1 + (groups.get ⟨j, hj⟩).2)
    (hafter : ∀ (j2 : ℕ) (hj2 : j2 < groups.length), j < j2 →
      ¬((groups.get ⟨j2, hj2⟩).1 ≤ k ∧
        k < (groups.get ⟨j2, hj2⟩).1 + (groups.get ⟨j2, hj2⟩).2)) :
    decodeGroups groups jtot row col k =
      row.getD (jtot + jtotAt groups j + (k - (groups.get ⟨j, hj⟩).1)) 0 := by
  induction groups generalizing jtot col j with
  | nil => exact absurd hj (Nat.not_lt_zero j)
  | cons p rest ih =>
    obtain ⟨fc, sl⟩ := p
    cases j with
    | zero =>
      have hget : ((fc, sl) :: rest).get ⟨0, hj⟩ = (fc, sl) := rfl
      rw [hget] at hk1 hk2
      have hrest : ∀ q ∈ rest, ¬(q.1 ≤ k ∧ k < q.1 + q.2) := by
        intro q hq
        obtain ⟨n, hn⟩ := List.mem_iff_get.mp hq
        have hb : n.val + 1 < ((fc, sl) :: rest).length := by
          simp only [List.length_cons]
          omega
        have hget2 : ((fc, sl) :: rest).get ⟨n.val + 1, hb⟩ = q := by
          simp only [List.get_cons_succ]
          rw [← hn]
        have := hafter (n.val + 1) hb (Nat.succ_pos _)
        rw [hget2] at this
        exact this
      rw [decodeGroups, decodeGroups_untouched rest _ row _ k hrest, sliceAssign,
        hget, jtotAt_zero]
      rw [if_pos ⟨hk1, hk2⟩, getD_drop_take row jtot sl (k - fc) (by omega)]
      norm_num
    | succ j =>
      have hj2 : j < rest.length := Nat.lt_of_succ_lt_succ hj
      have hgs : ((fc, sl) :: rest).get ⟨j + 1, hj⟩ = rest.get ⟨j, hj2⟩ := rfl
      rw [hgs] at hk1 hk2 ⊢
      rw [decodeGroups, ih _ _ j hj2 hk1 hk2 (fun j3 hj3 hlt =>
        hafter (j3 + 1) (Nat.succ_lt_succ hj3) (Nat.succ_lt_succ hlt)),
        jtotAt_cons_succ]
      congr 1
      omega

/-- Membership in `detColList`: position `k < nout` of the dense column list
holds the decoded column function at `k`. -/
theorem detColList_getD (groups : List (ℕ × ℕ)) (row : List ℚ) (nout k : ℕ)
    (hk : k < nout) :
    (detColList groups row nout).getD k 0 = detCol groups row k := by
  simp [detColList, List.getD_eq_getElem?_getD, List.getElem?_map,
    List.getElem?_range, hk]

/-- Writing the same slice twice keeps only the second write. -/
theorem sliceAssign_sliceAssign (col : ℕ → ℚ) (fc sl : ℕ) (v w : List ℚ) :
    sliceAssign (sliceAssign col fc sl v) fc sl w = sliceAssign col fc sl w := by
  funext k
  by_cases h : fc ≤ k ∧ k < fc + sl
  · simp [sliceAssign, h]
  · simp [sliceAssign, h]

/-- Decoding `n + 1` copies of the same offset/length pair is a single write
of the slice of the flattened row belonging to the last copy. -/
theorem decodeGroups_replicate (fc sl : ℕ) (row : List ℚ) (n : ℕ)
    (jtot : ℕ) (col : ℕ → ℚ) :
    decodeGroups (List.replicate (n + 1) (fc, sl)) jtot row col =
      sliceAssign col fc sl ((row.drop (jtot + n * sl)).take sl) := by
  induction n generalizing jtot col with
  | zero =>
    show sliceAssign col fc sl ((row.drop jtot).take sl) = _
    norm_num
  | succ n ih =>
    rw [List.replicate_succ, decodeGroups, ih (jtot + sl), sliceAssign_sliceAssign]
    ring_nf

/-! ## Claim theorems: decoder -/

/-- C1: for well-formed group data (runs inside the output range and pairwise
non-overlapping), the decoded column is dense of length `nout`, each group's
run slice `[offset, offset+length)` holds the next contiguous slice of the
flattened value row, every position outside any run is zero, and in
particular one group at offset 2, length 3 with values [0.2, 0.5, 0.1] over 5
output channels decodes to [0, 0, 0.2, 0.5, 0.1]. -/
theorem decoder_contract (groups : List (ℕ × ℕ)) (row : List ℚ) (nout : ℕ)
    (hbound : ∀ p ∈ groups, p.1 + p.2 ≤ nout)
    (hdisj : groups.Pairwise (fun a b => a.1 + a.2 ≤ b.1 ∨ b.1 + b.2 ≤ a.1)) :
    (detColList groups row nout).length = nout ∧
    (∀ (j : ℕ) (hj : j < groups.length) (m : ℕ), m < (groups.get ⟨j, hj⟩).2 →
      (detColList groups row nout).getD ((groups.get ⟨j, hj⟩).1 + m) 0 =
        row.getD (jtotAt groups j + m) 0) ∧
    (∀ k, k < nout → (∀ p ∈ groups, ¬(p.1 ≤ k ∧ k < p.1 + p.2)) →
      (detColList groups row nout).getD k 0 = 0) ∧
    detColList [(2, 3)] [1/5, 1/2, 1/10] 5 = [0, 0, 1/5, 1/2, 1/10] := by
  refine ⟨by simp [detColList], ?_, ?_, ?_⟩
  · intro j hj m hm
    have hmem : groups.get ⟨j, hj⟩ ∈ groups := List.get_mem groups j hj
    have hk : (groups.get ⟨j, hj⟩).1 + m < nout :=
      lt_of_lt_of_le (by omega) (hbound _ hmem)
    rw [detColList_getD groups row nout _ hk, detCol]
    have hpw := List.pairwise_iff_get.mp hdisj
    rw [decodeGroups_covered groups 0 row zeroCol j hj _
      (Nat.le_add_right _ m) (by omega)
      (fun j2 hj2 hlt => by
        have := hpw ⟨j, hj⟩ ⟨j2, hj2⟩ hlt
        omega)]
    congr 1
    omega
  · intro k hk hout
    rw [detColList_getD groups row nout k hk, detCol,
      decodeGroups_untouched groups 0 row zeroCol k hout]
    rfl
  · simp [detColList, detCol, decodeGroups, sliceAssign, zeroCol, List.range_succ]

/-- C1 witness: the contract instantiated at the single-group example of the
claim — offset 2, length 3, values [0.2, 0.5, 0.1], 5 output channels. -/
theorem decoder_contract_witness :
    (∀ p ∈ [((2 : ℕ), (3 : ℕ))], p.1 + p.2 ≤ 5) ∧
    detColList [(2, 3)] [1/5, 1/2, 1/10] 5 = [0, 0, 1/5, 1/2, 1/10] :=
  ⟨by decide,
    (decoder_contract [(2, 3)] [1/5, 1/2, 1/10] 5 (by decide)
      (by decide)).2.2.2⟩

/-- C10: in the scalar (mos) layout a bin with group count `g ≥ 1` reads the
same offset/length pair for every group, so every group writes the same
output slice and the decoded column equals the decode of the last group
alone, whose values are the flattened row slice `[(g-1)*length, g*length)`;
concretely, two groups at offset 0, length 1 over row [1, 2] decode to [2],
the last group's value, not the first's. -/
theorem scalar_layout_last_group_wins (g fc sl : ℕ) (row : List ℚ) (nout : ℕ)
    (hg : 1 ≤ g) :
    detColList (groupsScalar g fc sl) row nout =
      detColList [(fc, sl)] (row.drop ((g - 1) * sl)) nout ∧
    detColList (groupsScalar 2 0 1) [1, 2] 1 = [2] := by
  constructor
  · unfold detColList
    apply List.map_congr_left
    intro k _
    rw [detCol, detCol, groupsScalar]
    have hg1 : g = (g - 1) + 1 := by omega
    nth_rewrite 1 [hg1]
    rw [decodeGroups_replicate]
    simp [decodeGroups]
  · simp [detColList, detCol, decodeGroups, sliceAssign, zeroCol,
      groupsScalar, List.range_succ, List.replicate]

/-- C10 witness: two same-pair groups (g = 2, offset 0, length 1) over the
row [1, 2]: the decoded column is the decode of the last group alone. -/
theorem scalar_layout_last_group_wins_witness :
    1 ≤ 2 ∧
    detColList (groupsScalar 2 0 1) [1, 2] 1 =
      detColList [(0, 1)] (([1, 2] : List ℚ).drop ((2 - 1) * 1)) 1 :=
  ⟨by decide, (scalar_layout_last_group_wins 2 0 1 [1, 2] 1 (by decide)).1⟩

/-- C6: the layout flag is computed once per matrix from the dimensionality
of the `F_CHAN` field (1-D means scalar/mos, 2-D means vector/pn), and a
scalar-layout matrix with one group per bin decodes identically to the
vector-layout matrix encoding the identical single group per bin. -/
theorem layout_selection_and_equivalence :
    (∀ fchan nchan, pndatOf (FChanField.scalar fchan nchan) = false) ∧
    (∀ fchan nchan, pndatOf (FChanField.vec fchan nchan) = true) ∧
    (∀ (ngrps fchan nchan : List ℕ) (mat : List (List ℚ)) (nout : ℕ),
      ngrps.length ≤ fchan.length → ngrps.length ≤ nchan.length →
      (∀ i, i < ngrps.length → ngrps.getD i 0 = 1) →
      decodeMatrix ngrps (FChanField.scalar fchan nchan) mat nout =
        decodeMatrix ngrps
          (FChanField.vec (fchan.map (fun x => [x])) (nchan.map (fun x => [x])))
          mat nout) := by
  refine ⟨fun _ _ => rfl, fun _ _ => rfl, ?_⟩
  intro ngrps fchan nchan mat nout hf hn hone
  unfold decodeMatrix
  apply List.map_congr_left
  intro i hi
  have hi2 : i < ngrps.length := List.mem_range.mp hi
  have h1 : (fchan.map (fun x => [x])).getD i [] = [fchan.getD i 0] := by
    have hlt : i < fchan.length := lt_of_lt_of_le hi2 hf
    simp [List.getD_eq_getElem?_getD, List.getElem?_map, List.getElem?_eq_getElem, hlt]
  have h2 : (nchan.map (fun x => [x])).getD i [] = [nchan.getD i 0] := by
    have hlt : i < nchan.length := lt_of_lt_of_le hi2 hn
    simp [List.getD_eq_getElem?_getD, List.getElem?_map, List.getElem?_eq_getElem, hlt]
  congr 1
  rw [binGroups, binGroups, hone i hi2, h1, h2]
  rfl

/-- C6 witness: a two-bin matrix with one group per bin, encoded in the
scalar layout and in the vector layout with the identical single groups. -/
theorem layout_selection_and_equivalence_witness :
    (∀ i, i < ([1, 1] : List ℕ).length → ([1, 1] : List ℕ).getD i 0 = 1) ∧
    decodeMatrix [1, 1] (FChanField.scalar [2, 0] [3, 1])
        [[1/5, 1/2, 1/10], [1]] 5 =
      decodeMatrix [1, 1]
        (FChanField.vec (([2, 0] : List ℕ).map (fun x => [x]))
          (([3, 1] : List ℕ).map (fun x => [x])))
        [[1/5, 1/2, 1/10], [1]] 5 :=
  ⟨by decide,
    layout_selection_and_equivalence.2.2 [1, 1] [2, 0] [3, 1]
      [[1/5, 1/2, 1/10], [1]] 5 (by decide) (by decide) (by decide)⟩

/-! ## Claim theorems: metadata join -/

/-- C8: the join first re-derives the canonical 10-digit zero-padded
identifier for each raw (leading-zero-stripped) integer key, so the metadata
row stored under the raw identifier 123456789 is resolved by the canonical
identifier string 0123456789, yielding that row's four scalar fields. -/
theorem metadataJoin_normalizes (tbl : List (ℕ × ObsRow)) (r : ObsRow)
    (hmem : (123456789, r) ∈ tbl)
    (huniq : ∀ p ∈ tbl, pad10 p.1 = "0123456789" → p = (123456789, r)) :
    metadataJoin tbl "0123456789" = some r ∧
    pad10 123456789 = "0123456789" := by
  refine ⟨?_, rfl⟩
  induction tbl with
  | nil => simp at hmem
  | cons a tl ih =>
    by_cases hpa : pad10 a.1 = "0123456789"
    · have ha : a = (123456789, r) := huniq a (List.mem_cons_self _ _) hpa
      have hbeq : ((pad10 123456789 : String) == "0123456789") = true := by decide
      simp [metadataJoin, locLookup, renameIndex, List.find?_cons, ha, hbeq]
    · have hne : ((pad10 a.1 : String) == "0123456789") = false := by simp [hpa]
      have hmem2 : (123456789, r) ∈ tl := by
        rcases List.mem_cons.mp hmem with h | h
        · have ha1 : a.1 = 123456789 := by rw [← h]
          rw [ha1] at hpa
          exact absurd (by decide) hpa
        · exact h
      have ih2 := ih hmem2 (fun p hp => huniq p (List.mem_cons_of_mem _ hp))
      rw [metadataJoin, locLookup, renameIndex] at ih2 ⊢
      simpa [List.find?_cons, hne] using ih2

/-- C8 witness: a one-row table keyed by the raw identifier 123456789. -/
theorem metadataJoin_normalizes_witness :
    ((123456789, (⟨1, 2, 3, 4⟩ : ObsRow)) ∈
      [((123456789 : ℕ), (⟨1, 2, 3, 4⟩ : ObsRow))]) ∧
    metadataJoin [(123456789, ⟨1, 2, 3, 4⟩)] "0123456789" = some ⟨1, 2, 3, 4⟩ :=
  ⟨List.mem_cons_self _ _,
    (metadataJoin_normalizes [(123456789, ⟨1, 2, 3, 4⟩)] ⟨1, 2, 3, 4⟩
      (List.mem_cons_self _ _)
      (fun p hp _ => by
        rcases List.mem_cons.mp hp with h | h
        · exact h
        · simp at h)).1⟩

end Spc2dat
